import Mathlib

/-!
Verification development for the dwgrep query-execution core.

The definitions below are a shallow embedding of the C++ sources:

* `src/libzwerg/stack.hh`   — the operand stack with its cached selector
  (`m_profile`) and the `need`/`pop`/`top`/`get`/`drop` operations;
* `src/libzwerg/op.cc`      — the operators `op_or`, `op_merge`/`op_tine`,
  `op_capture`, `op_tr_closure`;
* `src/libzwerg/value-seq.cc` — `value_seq::cmp`, the `elem`/`relem`
  producers, `op_add_seq`, `op_length_seq`;
* `src/libzwerg/builtin-dw.cc` — `addressify`, `op_aset_cst_cst`,
  `pred_containsp_aset_cst`.

Machine integers are modelled as `Nat` with explicit `% 2 ^ w` where the
C++ type would truncate.  Fallible operations (C++ exceptions) return
`Except String`.  Lazy operator pipelines are modelled as functions from
an input stack to the list of result stacks they would enumerate, and
stateful operator graphs (`op_tr_closure`, `op_merge`) as explicit state
machines driven by a fuel parameter: one unit of fuel corresponds to one
iteration of the corresponding C++ loop, so any finite prefix of the
C++ enumeration is reproduced by a sufficiently large fuel.

Parts of the repository are not among the sources (only their users are):
`selector.hh` (the selector width `W`), `coverage.cc` (the address-set
representation), `value-cst.cc` (comparison of constants), and the
declaration of `op_tr_closure::m_seen`'s comparator in `op.hh`.  Those
definitions are modelled from the specification and are marked
`Modelled from the spec:` in their doc comments.
-/

/-- Result of `value::cmp` (`cmp_result` in `value.hh`): a three-way
comparison with an extra `fail` outcome for meaningless comparisons. -/
inductive cmp_result : Type where
  | less : cmp_result
  | equal : cmp_result
  | greater : cmp_result
  | fail : cmp_result
deriving DecidableEq

/-- Result of a predicate (`pred_result` in `pred_result.hh`). -/
inductive pred_result : Type where
  | no : pred_result
  | yes : pred_result
  | fail : pred_result
deriving DecidableEq

mutual

/-- A dwgrep value (`class value` and its subclasses).  The variants kept
here are the ones the verified claims exercise: constants (`value_cst`,
carrying a constant-domain identifier and an integer), strings
(`value_str`) and sequences (`value_seq`).  Every value carries its
mutable `m_pos` field (the position in the producing stream). -/
inductive value : Type where
  | cst : Nat → Int → Nat → value
  | str : String → Nat → value
  | seq : vlist → Nat → value

/-- The payload of a `value_seq` (`value_seq::seq_t`, a vector of owned
values), as a list left-to-right. -/
inductive vlist : Type where
  | vnil : vlist
  | vcons : value → vlist → vlist

end

instance : Inhabited value := ⟨value.cst 0 0 0⟩

/-- The 8-bit type code of a value's `value_type`
(`value::get_type ().code ()`).  Codes are allocated from 1 at startup;
the concrete numbers are immaterial, only that each variant has its own
code and that codes fit in 8 bits. -/
def value.typeCode : value → Nat
  | value.cst _ _ _ => 1
  | value.str _ _ => 2
  | value.seq _ _ => 3

/-- Accessor `value::get_pos`. -/
def value.get_pos : value → Nat
  | value.cst _ _ p => p
  | value.str _ p => p
  | value.seq _ p => p

/-- Mutator `value::set_pos`. -/
def value.set_pos : value → Nat → value
  | value.cst d n _, p => value.cst d n p
  | value.str s _, p => value.str s p
  | value.seq l _, p => value.seq l p

/-- `value::clone` — a deep copy; in a pure model a clone is the value
itself. -/
def value.clone (v : value) : value := v

/-- The constant domain of a constant value, `none` for other variants
(`value_cst::get_constant ().dom ()`). -/
def value.dom_of : value → Option Nat
  | value.cst d _ _ => some d
  | _ => none

def vlist.length : vlist → Nat
  | vlist.vnil => 0
  | vlist.vcons _ l => l.length + 1

def vlist.getD : vlist → Nat → value → value
  | vlist.vnil, _, dflt => dflt
  | vlist.vcons v _, 0, _ => v
  | vlist.vcons _ l, n + 1, dflt => l.getD n dflt

def vlist.toList : vlist → List value
  | vlist.vnil => []
  | vlist.vcons v l => v :: l.toList

def vlist.ofList : List value → vlist
  | [] => vlist.vnil
  | v :: l => vlist.vcons v (vlist.ofList l)

/-- The three-way comparison helper `compare` over sizes and type codes
(a strict-order three-way comparison, as used by `value_seq::cmp`). -/
def natCmp (a b : Nat) : cmp_result :=
  if a < b then cmp_result.less
  else if b < a then cmp_result.greater
  else cmp_result.equal

/-- Modelled from the spec: `value_cst::cmp` (in `value-cst.cc`, not
among the sources) is a total order within the constant variant; we
compare the integer payloads three-way. -/
def intCmp (a b : Int) : cmp_result :=
  if a < b then cmp_result.less
  else if b < a then cmp_result.greater
  else cmp_result.equal

/-- Modelled from the spec: `value_str::cmp` (in `value-str.cc`, not
among the sources) is a total order within the string variant; we
compare the strings three-way. -/
def strCmp (a b : String) : cmp_result :=
  if a < b then cmp_result.less
  else if b < a then cmp_result.greater
  else cmp_result.equal

/-- First pass of `value_seq::cmp`: `compare_sequences` instantiated
with a comparison of the element types
(`compare (a->get_type (), b->get_type ())`).  `std::mismatch` walks the
first range, so a shorter second range is never consulted past its end;
the function is only invoked on ranges of equal size. -/
def vlist.cmpTypes : vlist → vlist → cmp_result
  | vlist.vnil, _ => cmp_result.equal
  | vlist.vcons _ _, vlist.vnil => cmp_result.equal
  | vlist.vcons a l, vlist.vcons b m =>
    let r := natCmp a.typeCode b.typeCode
    if r = cmp_result.equal then vlist.cmpTypes l m else r

mutual

/-- `value::cmp` dispatched on the variant.  The `seq` case is
`value_seq::cmp` from `value-seq.cc`: first compare the sizes, then the
element types, then the element values; a non-sequence argument yields
`fail`.  The `cst` and `str` cases are modelled from the spec (their
sources are not in the repository snapshot): a total order within the
variant, `fail` across variants. -/
def value.cmp : value → value → cmp_result
  | value.cst _ n _, value.cst _ m _ => intCmp n m
  | value.str s _, value.str t _ => strCmp s t
  | value.seq l _, value.seq m _ =>
    let r := natCmp l.length m.length
    if r = cmp_result.equal then
      let r2 := vlist.cmpTypes l m
      if r2 = cmp_result.equal then vlist.cmpVals l m else r2
    else r
  | _, _ => cmp_result.fail

/-- Second pass of `value_seq::cmp`: `compare_sequences` instantiated
with the element comparison `a->cmp (*b)`. -/
def vlist.cmpVals : vlist → vlist → cmp_result
  | vlist.vnil, _ => cmp_result.equal
  | vlist.vcons _ _, vlist.vnil => cmp_result.equal
  | vlist.vcons a l, vlist.vcons b m =>
    let r := value.cmp a b
    if r = cmp_result.equal then vlist.cmpVals l m else r

end

/-- Modelled from the spec: value equality as used by the seen-set of
`op_tr_closure` (its comparator is declared in `op.hh`, which is not
among the sources) — two values are equal iff same variant, same domain
(for constants), and `cmp` returns equal. -/
def value.equivb (a b : value) : Bool :=
  a.typeCode == b.typeCode && a.dom_of == b.dom_of
    && (value.cmp a b == cmp_result.equal)

/-- Modelled from the spec: structural equality of stacks — same depth,
pairwise equal values.  A stack is modelled as the list of its values,
top first. -/
def stackEqb (a b : List value) : Bool :=
  a.length == b.length && (List.zip a b).all fun p => value.equivb p.1 p.2

/-- Membership in the seen-set of `op_tr_closure` (`m_seen.insert`
finding an equivalent element). -/
def seenMem (seen : List (List value)) (s : List value) : Bool :=
  seen.any fun t => stackEqb t s

/-- Modelled from the spec: the selector width `selector::W`
(`selector.hh` is not among the sources; the spec fixes the selector as
the fixed-width concatenation of the type codes of the top W values,
"typically 4"). -/
def selW : Nat := 4

/-- The operand stack of `stack.hh`: a vector of owned values
(`m_values`, modelled top-first) and the cached selector
(`m_profile`, a `selector::sel_t`, modelled as a natural below
`2 ^ (8 * selW)`). -/
structure stack : Type where
  m_values : List value
  m_profile : Nat

/-- The selector a stack should cache — the concatenation of the 8-bit
type codes of its top `selW` values, the top value's code in the lowest
byte, zero-padded when the stack is shallower than `selW`.  `profTake k`
is the same with `k` instead of `selW`. -/
def profTake (k : Nat) (vs : List value) : Nat :=
  ((vs.take k).map value.typeCode).foldr (fun c acc => acc * 256 + c) 0

/-- `stack::need`: throws `std::runtime_error ("stack overflow")` when
more values are requested than the stack holds. -/
def stack.need (stk : stack) (depth : Nat) : Except String Unit :=
  if depth > stk.m_values.length then Except.error "stack overflow"
  else Except.ok ()

/-- `stack::push`: appends the value and updates the selector by
`m_profile <<= 8; m_profile |= vp->get_type ().code ();` — the shift
truncates at the width of `sel_t`. -/
def stack.push (stk : stack) (v : value) : stack :=
  { m_values := v :: stk.m_values,
    m_profile := ((stk.m_profile <<< 8) % 2 ^ (8 * selW)) ||| v.typeCode }

/-- The selector update in `stack::pop`: shift the popped code out and,
when at least `selW` values remain, or the code of the value at depth
`selW - 1` back into the top byte. -/
def popProfile (p : Nat) (rest : List value) : Nat :=
  if selW ≤ rest.length then
    (p >>> 8) ||| (value.typeCode (rest.getD (selW - 1) default) <<< (8 * (selW - 1)))
  else p >>> 8

/-- `stack::pop`: `need (1)` (the empty case throws), then removes and
returns the top value and updates the selector. -/
def stack.pop (stk : stack) : Except String (value × stack) :=
  match stk.m_values with
  | [] => Except.error "stack overflow"
  | v :: rest => Except.ok (v, { m_values := rest, m_profile := popProfile stk.m_profile rest })

/-- `stack::top`: `need (1)`, then the top value. -/
def stack.top (stk : stack) : Except String value :=
  match stk.m_values with
  | [] => Except.error "stack overflow"
  | v :: _ => Except.ok v

/-- `stack::get`: `need (depth + 1)`, then the value at that depth from
the top. -/
def stack.get (stk : stack) (depth : Nat) : Except String value :=
  match stk.m_values.get? depth with
  | none => Except.error "stack overflow"
  | some v => Except.ok v

/-- The recomputation loop of `stack::drop`:
`for d = 0; d < W and d < size; ++d: profile |= code (get d) << (d * 8)`.
`w` counts the remaining iterations (`w + d = selW` throughout). -/
def dropProfileGo (vs : List value) : Nat → Nat → Nat → Nat
  | 0, _, acc => acc
  | w + 1, d, acc =>
    match vs.get? d with
    | none => acc
    | some v => dropProfileGo vs w (d + 1) (acc ||| (value.typeCode v <<< (8 * d)))

/-- `stack::drop`: `need (n)`, then erase the top `n` values and
recompute the selector from scratch. -/
def stack.drop (stk : stack) (n : Nat) : Except String stack :=
  if n > stk.m_values.length then Except.error "stack overflow"
  else Except.ok
    { m_values := stk.m_values.drop n,
      m_profile := dropProfileGo (stk.m_values.drop n) selW 0 0 }

/-- The selector invariant of §3.4: the cached selector equals the
type-code concatenation of the current top `selW` values. -/
def stack.wf (stk : stack) : Prop := stk.m_profile = profTake selW stk.m_values

/-- `op_or::next` driving one upstream stack through the branch list:
each branch origin is primed with a copy of the stack; the first branch
whose sub-expression yields a result is drained completely and the
remaining branches are never primed for this input.  A branch is
modelled as the function from the primed stack to the full list of
results its sub-expression enumerates. -/
def op_or.drive (branches : List (List value → List (List value)))
    (s : List value) : List (List value) :=
  match branches with
  | [] => []
  | b :: bs =>
    match b s with
    | [] => op_or.drive bs s
    | r :: rs => r :: rs

/-- The full enumeration of `op_or` over a list of upstream stacks:
whenever the current branch is exhausted, `reset_me` sets
`m_branch_it = end` and the next upstream stack is pulled. -/
def op_or.run (branches : List (List value → List (List value))) :
    List (List value) → List (List value)
  | [] => []
  | s :: us => op_or.drive branches s ++ op_or.run branches us

/-- State of `op_tr_closure` between two `next` calls: `pending` are the
results the inner expression (`m_op`) still has to deliver for its
current priming (`m_op_drained` corresponds to `pending = []`),
`worklist` is `m_stks` (most recent first — `push_back`/`back`/
`pop_back`), `seen` is `m_seen`, and `upstream` the stacks the upstream
operator still has to deliver. -/
structure tr_state : Type where
  pending : List (List value)
  worklist : List (List value)
  seen : List (List value)
  upstream : List (List value)

/-- The initial state of `op_tr_closure` (`m_op_drained = true`, empty
`m_stks` and `m_seen`). -/
def trInit (us : List (List value)) : tr_state := ⟨[], [], [], us⟩

/-- The enumeration loop of `op_tr_closure::next` for both kinds
(`is_plus = false` is `star`).  One unit of fuel is one loop iteration:

* a pending inner result is passed through `yield_and_cache` — yielded,
  remembered in `seen` and pushed onto the worklist when new, silently
  dropped otherwise;
* when the inner expression is drained, `send_to_op` primes it with the
  most recent worklist entry;
* when the worklist is empty too, the next upstream stack is pulled
  (`next_from_upstream` clears the seen-set first): `plus` feeds it to
  the inner expression without yielding it, `star` yields it directly
  (through `yield_and_cache` on the freshly cleared seen-set). -/
def op_tr_closure.run (inner : List value → List (List value))
    (is_plus : Bool) : Nat → tr_state → List (List value)
  | 0, _ => []
  | fuel + 1, st =>
    match st.pending with
    | r :: rest =>
      if seenMem st.seen r then
        op_tr_closure.run inner is_plus fuel { st with pending := rest }
      else
        r :: op_tr_closure.run inner is_plus fuel
          { st with pending := rest, worklist := r :: st.worklist, seen := r :: st.seen }
    | [] =>
      match st.worklist with
      | w :: ws =>
        op_tr_closure.run inner is_plus fuel
          { st with pending := inner w, worklist := ws }
      | [] =>
        match st.upstream with
        | [] => []
        | s :: us =>
          if is_plus then
            op_tr_closure.run inner is_plus fuel
              { pending := inner s, worklist := [], seen := [], upstream := us }
          else
            s :: op_tr_closure.run inner is_plus fuel
              { pending := [], worklist := [s], seen := [s], upstream := us }

/-- State shared by `op_tine` and `op_merge`: per-branch queues of
results the branch operator has produced but not yet delivered
(`pendings`), the slot file of the tines (`file`), the shared done flag,
the remaining upstream stacks, and `op_merge::m_it` (`it`). -/
structure merge_state : Type where
  pendings : List (List (List value))
  file : List (Option (List value))
  done : Bool
  upstream : List (List value)
  it : Nat

/-- `op_tine::next` for the tine of branch `i`: when the whole file is
empty, one upstream stack is pulled and copied into every slot (or the
shared done flag is set); the tine then moves its own slot out. -/
def tinePull (st : merge_state) (i : Nat) : Option (List value) × merge_state :=
  if st.done then (none, st)
  else if st.file.all Option.isNone then
    match st.upstream with
    | [] => (none, { st with done := true })
    | s :: us =>
      ((List.replicate st.file.length (some s)).getD i none,
       { st with file := (List.replicate st.file.length (some s)).set i none,
                 upstream := us })
  else (st.file.getD i none, { st with file := st.file.set i none })

/-- The input-pulling loop of the operator chain of branch `i` (the
branch body is modelled as the function `b` from an input stack to the
list of results it produces for it): pull an input from the tine,
produce the branch's results for it, deliver the first and queue the
rest; keep pulling while the branch produces nothing — `fuel` bounds
that loop. -/
def branchLoop (b : List value → List (List value)) (i : Nat) :
    Nat → merge_state → Option (List value) × merge_state
  | 0, st => (none, st)
  | fuel + 1, st =>
    match tinePull st i with
    | (none, st2) => (none, st2)
    | (some s, st2) =>
      match b s with
      | [] => branchLoop b i fuel { st2 with pendings := st2.pendings.set i [] }
      | r :: rs => (some r, { st2 with pendings := st2.pendings.set i rs })

/-- One `next` call on the operator chain of branch `i`: deliver a
queued result if there is one, otherwise enter the tine-pulling loop. -/
def branchPull (b : List value → List (List value)) (i : Nat) (fuel : Nat)
    (st : merge_state) : Option (List value) × merge_state :=
  match st.pendings.getD i [] with
  | r :: rs => (some r, { st with pendings := st.pendings.set i rs })
  | [] => branchLoop b i fuel st

/-- The enumeration loop of `op_merge::next`: while the done flag is
unset, poll the current branch; a produced stack is returned *without
advancing `m_it`*; only when the branch comes back empty does the
iterator move on (cyclically). -/
def mergeRun (branches : List (List value → List (List value))) :
    Nat → merge_state → List (List value)
  | 0, _ => []
  | fuel + 1, st =>
    if st.done then []
    else
      match branchPull (branches.getD st.it (fun _ => [])) st.it fuel st with
      | (some r, st2) => r :: mergeRun branches fuel st2
      | (none, st2) =>
        mergeRun branches fuel
          { st2 with it := if st.it + 1 = branches.length then 0 else st.it + 1 }

/-- The initial state of a `k`-tine `op_merge` graph. -/
def mergeInit (k : Nat) (us : List (List value)) : merge_state :=
  ⟨List.replicate k [], List.replicate k none, false, us, 0⟩

/-- The claim's reading of `Merge` — round-robin, one result per branch
per visit: repeatedly take the head of every non-exhausted branch list
in order, until all are drained.  `fuel` bounds the number of rounds. -/
def roundRobinGo : Nat → List (List (List value)) → List (List value)
  | 0, _ => []
  | fuel + 1, ls =>
    if ls.all List.isEmpty then []
    else ls.filterMap List.head? ++ roundRobinGo fuel (ls.map List.tail)

/-- Round-robin interleaving of the branch result lists (the number of
rounds is bounded by the total number of results). -/
def roundRobin (ls : List (List (List value))) : List (List value) :=
  roundRobinGo ((ls.map List.length).sum + 1) ls

/-- The collection loop of `op_capture::next`: pop the top of every
result stack of the inner expression, in production order
(`vv.push_back (stk2->pop ())`); popping an empty stack throws. -/
def popTops : List (List value) → Except String (List value)
  | [] => Except.ok []
  | [] :: _ => Except.error "stack overflow"
  | (v :: _) :: rest =>
    match popTops rest with
    | Except.error e => Except.error e
    | Except.ok vv => Except.ok (v :: vv)

/-- `op_capture::next` on one upstream stack: drive the inner expression
on a copy, collect the popped tops into a `value_seq` (position 0) and
push it onto the original stack. -/
def op_capture (inner : List value → List (List value)) (s : List value) :
    Except String (List value) :=
  match popTops (inner s) with
  | Except.error e => Except.error e
  | Except.ok vv => Except.ok (value.seq (vlist.ofList vv) 0 :: s)

/-- `seq_elem_producer` (`value-seq.cc`): for each index `i` below the
size of the sequence, a clone of element `i` with its position stamped
to `i`. -/
def seqElemOut (l : vlist) : List value :=
  (List.range l.length).map fun i => ((l.getD i default).clone).set_pos i

/-- `seq_relem_producer` (`value-seq.cc`): for each index `i` below the
size of the sequence, a clone of element `size - 1 - i` with its
position stamped to `i`. -/
def seqRelemOut (l : vlist) : List value :=
  (List.range l.length).map fun i => ((l.getD (l.length - 1 - i) default).clone).set_pos i

/-- A constant value's payload (`class constant`): the constant domain
and the arbitrary-precision integer. -/
structure zconst : Type where
  dom : Nat
  val : Int

/-- `addressify` (`builtin-dw.cc`): clamp negative constants to 0 (with
a warning on stderr, which has no effect on the result) and return the
unsigned value. -/
def addressify (c : zconst) : Nat :=
  (if c.val < 0 then 0 else c.val).toNat

/-- Modelled from the spec: `coverage::add` (`coverage.cc` is not among
the sources) — insert `[start, start + len)` into a sorted list of
disjoint ranges, merging overlapping and adjacent ranges; empty ranges
are forbidden and add nothing. -/
def covAdd : List (Nat × Nat) → Nat → Nat → List (Nat × Nat)
  | [], start, len => if len = 0 then [] else [(start, len)]
  | (s, l) :: rest, start, len =>
    if len = 0 then (s, l) :: rest
    else if start + len < s then (start, len) :: (s, l) :: rest
    else if s + l < start then (s, l) :: covAdd rest start len
    else covAdd rest (min s start) (max (s + l) (start + len) - min s start)

/-- Modelled from the spec: `coverage::is_covered` — whether every
address of `[start, start + len)` lies in one of the ranges. -/
def is_covered (ranges : List (Nat × Nat)) (start len : Nat) : Bool :=
  (List.range len).all fun i =>
    ranges.any fun r => decide (r.1 ≤ start + i) && decide (start + i < r.1 + r.2)

/-- `op_aset_cst_cst` (`builtin-dw.cc`): addressify both constants, swap
them so the lower one starts the range, and build the coverage spanning
`[low, high)`. -/
def op_aset_cst_cst (a b : zconst) : List (Nat × Nat) :=
  let av := addressify a
  let bv := addressify b
  if av > bv then covAdd [] bv (av - bv) else covAdd [] av (bv - av)

/-- `pred_containsp_aset_cst` (`builtin-dw.cc`): the constant is
addressified and tested for point containment
(`is_covered (av.uval (), 1)`). -/
def pred_containsp_aset_cst (cov : List (Nat × Nat)) (b : zconst) : pred_result :=
  if is_covered cov (addressify b) 1 then pred_result.yes else pred_result.no

/-! Helper lemmas. -/

/-- Concrete result stacks used to exercise the merge machine. -/
def mrgA : List value := [value.cst 0 1 0]

def mrgB : List value := [value.cst 0 2 0]

def mrgC : List value := [value.cst 0 3 0]

def mrgD : List value := [value.cst 0 4 0]

def mrgS : List value := [value.cst 0 9 0]

theorem value.get_pos_set_pos (v : value) (p : Nat) : (v.set_pos p).get_pos = p := by
  cases v <;> rfl

theorem value.set_pos_set_pos (v : value) (p q : Nat) :
    (v.set_pos p).set_pos q = v.set_pos q := by
  cases v <;> rfl

theorem natCmp_refl (a : Nat) : natCmp a a = cmp_result.equal := by
  simp [natCmp]

theorem intCmp_refl (a : Int) : intCmp a a = cmp_result.equal := by
  simp [intCmp]

theorem strCmp_refl (s : String) : strCmp s s = cmp_result.equal := by
  simp [strCmp, String.lt_irrefl]

theorem vlist.cmpTypes_refl : ∀ l : vlist, vlist.cmpTypes l l = cmp_result.equal
  | vlist.vnil => rfl
  | vlist.vcons a l => by
    simp [vlist.cmpTypes, natCmp_refl, vlist.cmpTypes_refl l]

mutual

theorem value.cmp_refl : ∀ v : value, value.cmp v v = cmp_result.equal
  | value.cst d n p => by simp [value.cmp, intCmp_refl]
  | value.str s p => by simp [value.cmp, strCmp_refl]
  | value.seq l p => by
    simp [value.cmp, natCmp_refl, vlist.cmpTypes_refl, vlist.cmpVals_refl l]

theorem vlist.cmpVals_refl : ∀ l : vlist, vlist.cmpVals l l = cmp_result.equal
  | vlist.vnil => rfl
  | vlist.vcons a l => by
    simp [vlist.cmpVals, value.cmp_refl a, vlist.cmpVals_refl l]

end

theorem value.cmp_set_pos_left (v w : value) (p : Nat) :
    value.cmp (v.set_pos p) w = value.cmp v w := by
  cases v <;> cases w <;> rfl

theorem vlist.length_ofList : ∀ xs : List value, (vlist.ofList xs).length = xs.length
  | [] => rfl
  | x :: xs => by simp [vlist.ofList, vlist.length, vlist.length_ofList xs]

theorem vlist.getD_ofList : ∀ (xs : List value) (i : Nat) (d : value),
    (vlist.ofList xs).getD i d = xs.getD i d
  | [], _, _ => rfl
  | x :: xs, 0, d => rfl
  | x :: xs, i + 1, d => by
    simp [vlist.ofList, vlist.getD, vlist.getD_ofList xs i d]

theorem vlist.getD_toList : ∀ (l : vlist) (i : Nat) (d : value),
    l.getD i d = l.toList.getD i d
  | vlist.vnil, _, _ => rfl
  | vlist.vcons v l, 0, d => rfl
  | vlist.vcons v l, i + 1, d => by
    simp [vlist.toList, vlist.getD, vlist.getD_toList l i d]

theorem vlist.length_toList : ∀ l : vlist, l.toList.length = l.length
  | vlist.vnil => rfl
  | vlist.vcons v l => by simp [vlist.toList, vlist.length, vlist.length_toList l]

/-- Mapping an index-dependent function over the positions of a list,
expressed through `List.getD`, is the same as mapping over the list. -/
theorem mapRange_getD (d : value) :
    ∀ (xs : List value) (f : value → value),
      (List.range xs.length).map (fun i => f (xs.getD i d)) = xs.map f
  | [], _ => rfl
  | x :: xs, f => by
    rw [List.length_cons, List.range_succ_eq_map, List.map_cons, List.map_map]
    refine congrArg₂ _ rfl ?_
    have h := mapRange_getD d xs f
    refine Eq.trans (List.map_congr_left ?_) h
    intro a _
    rfl

/-- Pairing version of `mapRange_getD`: the mapped list is pointwise
related to the original when the index-dependent function is. -/
theorem forall2_mapRange_getD (d : value) (R : value → value → Prop) :
    ∀ (xs : List value) (g : Nat → value → value),
      (∀ i v, R (g i v) v) →
      List.Forall₂ R ((List.range xs.length).map (fun i => g i (xs.getD i d))) xs
  | [], _, _ => List.Forall₂.nil
  | x :: xs, g, hg => by
    rw [List.length_cons, List.range_succ_eq_map, List.map_cons, List.map_map]
    refine List.Forall₂.cons (hg 0 x) ?_
    have h := forall2_mapRange_getD d R xs (fun i v => g (i + 1) v) fun i v => hg (i + 1) v
    refine List.map_congr_left ?_ ▸ h
    intro a _
    rfl

theorem getD_reverse (xs : List value) (i : Nat) (h : i < xs.length) (d : value) :
    xs.reverse.getD i d = xs.getD (xs.length - 1 - i) d := by
  have h2 : i < xs.reverse.length := by simpa using h
  have h3 : xs.length - 1 - i < xs.length := by omega
  rw [List.getD_eq_getElem?_getD, List.getElem?_eq_getElem h2,
    List.getD_eq_getElem?_getD, List.getElem?_eq_getElem h3]
  simp [List.getElem_reverse]

/-- C6: for every sequence of n elements, `elem` yields clones of the
elements in forward order with positions 0, 1, …, n−1, and `relem`
yields clones of the elements in reverse order with positions also
stamped 0, 1, …, n−1 — positions number the output stream, not the
element indices.  Equality of the yielded values with the (reversed)
sequence elements is stated after re-stamping both sides' position field
to 0, i.e. the clones agree with the elements in everything except the
freshly stamped position. -/
theorem seq_elem_relem_positions :
    (∀ l : vlist, (seqElemOut l).map value.get_pos = List.range l.length)
    ∧ (∀ l : vlist, (seqRelemOut l).map value.get_pos = List.range l.length)
    ∧ (∀ l : vlist,
        (seqElemOut l).map (value.set_pos · 0) = l.toList.map (value.set_pos · 0))
    ∧ (∀ l : vlist,
        (seqRelemOut l).map (value.set_pos · 0)
          = l.toList.reverse.map (value.set_pos · 0)) := by
  refine ⟨fun l => ?_, fun l => ?_, fun l => ?_, fun l => ?_⟩
  · rw [seqElemOut, List.map_map]
    refine Eq.trans (List.map_congr_left fun i _ => ?_) (List.map_id _)
    simp [value.clone, value.get_pos_set_pos]
  · rw [seqRelemOut, List.map_map]
    refine Eq.trans (List.map_congr_left fun i _ => ?_) (List.map_id _)
    simp [value.clone, value.get_pos_set_pos]
  · rw [seqElemOut, List.map_map]
    have h1 : ∀ i, ((l.getD i default).clone.set_pos i).set_pos 0
        = (l.toList.getD i default).set_pos 0 := by
      intro i
      simp only [value.clone, value.set_pos_set_pos, vlist.getD_toList]
    refine Eq.trans (List.map_congr_left fun i _ => h1 i) ?_
    rw [show l.length = l.toList.length from (vlist.length_toList l).symm]
    exact mapRange_getD default l.toList (value.set_pos · 0)
  · rw [seqRelemOut, List.map_map]
    have len : l.length = l.toList.length := (vlist.length_toList l).symm
    have h1 : ∀ i ∈ List.range l.length,
        ((l.getD (l.length - 1 - i) default).clone.set_pos i).set_pos 0
          = (l.toList.reverse.getD i default).set_pos 0 := by
      intro i hi
      rw [List.mem_range] at hi
      simp only [value.clone, value.set_pos_set_pos, vlist.getD_toList,
        getD_reverse l.toList i (by omega), vlist.length_toList]
    refine Eq.trans (List.map_congr_left h1) ?_
    rw [show l.length = l.toList.reverse.length by simp [len]]
    exact mapRange_getD default l.toList.reverse (value.set_pos · 0)

/-- C5: for every input stack, running `Capture (inner)` and then
enumerating the captured sequence with `elem` yields the same values
(under cmp-equality, which ignores the position field) as running
`inner` directly on that input, in the same order.  `inner`'s values are
the tops its result stacks carry, which is what `op_capture` collects;
the hypothesis states that this collection succeeded (no inner result
stack was empty). -/
theorem capture_then_elem_matches_inner :
    ∀ (inner : List value → List (List value)) (s : List value)
      (tops : List value),
      popTops (inner s) = Except.ok tops →
      op_capture inner s = Except.ok (value.seq (vlist.ofList tops) 0 :: s)
      ∧ List.Forall₂ (fun a b => value.cmp a b = cmp_result.equal)
          (seqElemOut (vlist.ofList tops)) tops := by
  intro inner s tops h
  constructor
  · rw [op_capture, h]
  · rw [seqElemOut, vlist.length_ofList]
    have h2 : ∀ i ∈ List.range tops.length,
        ((vlist.ofList tops).getD i default).clone.set_pos i
          = (tops.getD i default).clone.set_pos i := by
      intro i _
      rw [vlist.getD_ofList]
    rw [List.map_congr_left h2]
    refine forall2_mapRange_getD default _ tops
      (fun i v => v.clone.set_pos i) fun i v => ?_
    simp only [value.clone, value.cmp_set_pos_left, value.cmp_refl]

/-- C9: comparing two sequence values orders them first by length — any
shorter sequence compares less (and any longer greater) than the other
regardless of the elements; only sequences of equal length are compared
element-wise, first by element type and then by element value; and
comparing a sequence to a non-sequence value returns `fail`. -/
theorem value_seq_cmp_shape :
    (∀ (l m : vlist) (p q : Nat), l.length < m.length →
      value.cmp (value.seq l p) (value.seq m q) = cmp_result.less)
    ∧ (∀ (l m : vlist) (p q : Nat), m.length < l.length →
      value.cmp (value.seq l p) (value.seq m q) = cmp_result.greater)
    ∧ (∀ (l m : vlist) (p q : Nat), l.length = m.length →
      value.cmp (value.seq l p) (value.seq m q)
        = if vlist.cmpTypes l m = cmp_result.equal then vlist.cmpVals l m
          else vlist.cmpTypes l m)
    ∧ (∀ (l : vlist) (p d : Nat) (n : Int) (q : Nat),
      value.cmp (value.seq l p) (value.cst d n q) = cmp_result.fail)
    ∧ (∀ (l : vlist) (p : Nat) (s : String) (q : Nat),
      value.cmp (value.seq l p) (value.str s q) = cmp_result.fail) := by
  refine ⟨fun l m p q h => ?_, fun l m p q h => ?_, fun l m p q h => ?_,
    fun l p d n q => rfl, fun l p s q => rfl⟩
  · simp [value.cmp, natCmp, h]
  · simp [value.cmp, natCmp, h, Nat.lt_asymm h]
  · simp [value.cmp, natCmp, h]

/-- C9 witness: the length-dominance conjuncts applied at a concrete
pair of sequences — the empty sequence against a one-element sequence
whose element would compare greater. -/
theorem value_seq_cmp_shape_witness :
    vlist.length vlist.vnil < vlist.length (vlist.vcons (value.cst 0 0 0) vlist.vnil)
    ∧ value.cmp (value.seq vlist.vnil 0)
        (value.seq (vlist.vcons (value.cst 0 0 0) vlist.vnil) 0) = cmp_result.less := by
  refine ⟨by decide, ?_⟩
  exact value_seq_cmp_shape.1 vlist.vnil (vlist.vcons (value.cst 0 0 0) vlist.vnil)
    0 0 (by decide)

/-- C7: whenever an operation on a stack requires more values than the
stack currently holds — `pop`, `top`, `get`, or an explicit `need` check
with a depth greater than the stack's size — the query is aborted with a
fatal error (`std::runtime_error`, modelled as `Except.error`) rather
than the stack being dropped or the condition diagnosed and skipped. -/
theorem stack_underflow_is_fatal :
    (∀ (stk : stack) (d : Nat), stk.m_values.length < d →
      stack.need stk d = Except.error "stack overflow")
    ∧ (∀ stk : stack, stk.m_values = [] →
      stack.pop stk = Except.error "stack overflow")
    ∧ (∀ stk : stack, stk.m_values = [] →
      stack.top stk = Except.error "stack overflow")
    ∧ (∀ (stk : stack) (d : Nat), stk.m_values.length ≤ d →
      stack.get stk d = Except.error "stack overflow")
    ∧ (∀ (stk : stack) (n : Nat), stk.m_values.length < n →
      stack.drop stk n = Except.error "stack overflow") := by
  refine ⟨fun stk d h => ?_, fun stk h => ?_, fun stk h => ?_,
    fun stk d h => ?_, fun stk n h => ?_⟩
  · simp [stack.need, h]
  · rw [stack.pop, h]
  · rw [stack.top, h]
  · rw [stack.get, List.get?_eq_none.mpr h]
  · simp [stack.drop, h]

/-- C7 witness: all five underflow conjuncts applied to the empty
stack. -/
theorem stack_underflow_is_fatal_witness :
    ((stack.mk [] 0).m_values.length < 1
      ∧ stack.need (stack.mk [] 0) 1 = Except.error "stack overflow")
    ∧ ((stack.mk [] 0).m_values = []
      ∧ stack.pop (stack.mk [] 0) = Except.error "stack overflow")
    ∧ stack.top (stack.mk [] 0) = Except.error "stack overflow"
    ∧ stack.get (stack.mk [] 0) 0 = Except.error "stack overflow"
    ∧ stack.drop (stack.mk [] 0) 1 = Except.error "stack overflow" := by
  refine ⟨⟨by decide, stack_underflow_is_fatal.1 (stack.mk [] 0) 1 (by decide)⟩,
    ⟨rfl, stack_underflow_is_fatal.2.1 (stack.mk [] 0) rfl⟩,
    stack_underflow_is_fatal.2.2.1 (stack.mk [] 0) rfl,
    stack_underflow_is_fatal.2.2.2.1 (stack.mk [] 0) 0 (by decide),
    stack_underflow_is_fatal.2.2.2.2 (stack.mk [] 0) 1 (by decide)⟩


theorem is_covered_nil (x : Nat) : is_covered [] x 1 = false := by
  simp [is_covered]

theorem is_covered_single (s l x : Nat) :
    is_covered [(s, l)] x 1 = (decide (s ≤ x) && decide (x < s + l)) := by
  show (List.range 1).all _ = _
  rw [show List.range 1 = [0] from rfl]
  simp [is_covered]

theorem aset_ranges_min_max (a b : zconst) :
    op_aset_cst_cst a b
      = covAdd [] (min (addressify a) (addressify b))
          (max (addressify a) (addressify b) - min (addressify a) (addressify b)) := by
  rw [op_aset_cst_cst]
  by_cases h : addressify a > addressify b
  · rw [if_pos h]
    congr 1 <;> omega
  · rw [if_neg h]
    congr 1 <;> omega

/-- C8: an address set built by `lo hi aset` covers exactly the
half-open range `[lo, hi)` — concretely, `0 10 aset 9 ?contains` holds
and `0 10 aset 10 ?contains` does not, and in general `?contains` on an
address set built by `aset` and a constant holds iff the (addressified)
constant lies at or above the low end and strictly below the high end of
the range. -/
theorem aset_contains_half_open :
    pred_containsp_aset_cst (op_aset_cst_cst (zconst.mk 0 0) (zconst.mk 0 10))
      (zconst.mk 0 9) = pred_result.yes
    ∧ pred_containsp_aset_cst (op_aset_cst_cst (zconst.mk 0 0) (zconst.mk 0 10))
      (zconst.mk 0 10) = pred_result.no
    ∧ ∀ a b c : zconst,
        (pred_containsp_aset_cst (op_aset_cst_cst a b) c = pred_result.yes
          ↔ (min (addressify a) (addressify b) ≤ addressify c
              ∧ addressify c < max (addressify a) (addressify b))) := by
  refine ⟨by decide, by decide, fun a b c => ?_⟩
  rw [pred_containsp_aset_cst, aset_ranges_min_max]
  have hlo : min (addressify a) (addressify b) ≤ max (addressify a) (addressify b) := by
    omega
  by_cases h0 : max (addressify a) (addressify b) - min (addressify a) (addressify b) = 0
  · rw [covAdd, if_pos h0, is_covered_nil]
    simp only [Bool.false_eq_true, if_false]
    constructor
    · intro hy
      exact absurd hy (by simp)
    · intro hc
      omega
  · rw [covAdd, if_neg h0, is_covered_single]
    by_cases hc : (min (addressify a) (addressify b) ≤ addressify c
        ∧ addressify c < max (addressify a) (addressify b))
    · have : (decide (min (addressify a) (addressify b) ≤ addressify c)
          && decide (addressify c < min (addressify a) (addressify b)
            + (max (addressify a) (addressify b) - min (addressify a) (addressify b)))) = true := by
        simp only [Bool.and_eq_true, decide_eq_true_eq]
        omega
      rw [this, if_pos rfl]
      simp [hc]
    · have : (decide (min (addressify a) (addressify b) ≤ addressify c)
          && decide (addressify c < min (addressify a) (addressify b)
            + (max (addressify a) (addressify b) - min (addressify a) (addressify b)))) = false := by
        simp only [Bool.and_eq_false_iff, decide_eq_false_iff_not]
        omega
      rw [this]
      simp only [Bool.false_eq_true, if_false]
      constructor
      · intro hy
        exact absurd hy (by simp)
      · intro h2
        exact absurd h2 hc

/-- C10: the `aset` word on two constants is insensitive to operand
order — for all constants a and b, `a b aset` yields the same address
set as `b a aset` (the operands are swapped so the lower value starts
the range), and any negative operand is clamped to 0 (by `addressify`)
before the range is constructed. -/
theorem aset_commutes_and_clamps :
    (∀ a b : zconst, op_aset_cst_cst a b = op_aset_cst_cst b a)
    ∧ (∀ a b : zconst, a.val < 0 →
        op_aset_cst_cst a b = op_aset_cst_cst (zconst.mk a.dom 0) b)
    ∧ (∀ c : zconst, c.val < 0 → addressify c = 0) := by
  refine ⟨fun a b => ?_, fun a b h => ?_, fun c h => ?_⟩
  · rw [aset_ranges_min_max, aset_ranges_min_max]
    congr 1 <;> omega
  · have hz : addressify a = addressify (zconst.mk a.dom 0) := by
      simp [addressify, h, le_of_lt h]
    rw [op_aset_cst_cst, op_aset_cst_cst, hz]
  · simp [addressify, h]

/-- C10 witness: the clamping conjuncts applied to the constant −5, and
the commutativity conjunct at the pair (−5, 7): `-5 7 aset` equals
`7 -5 aset` and equals `0 7 aset`. -/
theorem aset_commutes_and_clamps_witness :
    op_aset_cst_cst (zconst.mk 0 (-5)) (zconst.mk 0 7)
      = op_aset_cst_cst (zconst.mk 0 7) (zconst.mk 0 (-5))
    ∧ ((zconst.mk 0 (-5)).val < 0
      ∧ op_aset_cst_cst (zconst.mk 0 (-5)) (zconst.mk 0 7)
          = op_aset_cst_cst (zconst.mk 0 0) (zconst.mk 0 7))
    ∧ addressify (zconst.mk 0 (-5)) = 0 := by
  refine ⟨aset_commutes_and_clamps.1 (zconst.mk 0 (-5)) (zconst.mk 0 7),
    ⟨by decide, aset_commutes_and_clamps.2.1 (zconst.mk 0 (-5)) (zconst.mk 0 7) (by decide)⟩,
    aset_commutes_and_clamps.2.2 (zconst.mk 0 (-5)) (by decide)⟩

theorem op_or_drive_first_success :
    ∀ (bs1 : List (List value → List (List value)))
      (b : List value → List (List value))
      (bs2 : List (List value → List (List value))) (s : List value),
      (∀ b1 ∈ bs1, b1 s = []) → b s ≠ [] →
      op_or.drive (bs1 ++ b :: bs2) s = b s
  | [], b, bs2, s, _, hb => by
    rw [List.nil_append, op_or.drive]
    match h : b s with
    | [] => exact absurd h hb
    | r :: rs => rfl
  | b1 :: bs1, b, bs2, s, h1, hb => by
    rw [List.cons_append, op_or.drive, h1 b1 (List.mem_cons_self b1 bs1)]
    exact op_or_drive_first_success bs1 b bs2 s
      (fun b2 h2 => h1 b2 (List.mem_cons_of_mem b1 h2)) hb

/-- C2: for every upstream input stack, the `Or` operator drives its
branches in declaration order and emits exactly the results of the first
branch that yields at least one result for that input; the results of
every later branch are never emitted for that input, even if those
branches would also succeed (the later branches `bs2` are arbitrary
here, and do not occur in the emitted results). -/
theorem op_or_emits_first_successful_branch :
    ∀ (bs1 : List (List value → List (List value)))
      (b : List value → List (List value))
      (bs2 : List (List value → List (List value)))
      (s : List value) (us : List (List value)),
      (∀ b1 ∈ bs1, b1 s = []) → b s ≠ [] →
      op_or.run (bs1 ++ b :: bs2) (s :: us)
        = b s ++ op_or.run (bs1 ++ b :: bs2) us := by
  intro bs1 b bs2 s us h1 hb
  rw [op_or.run, op_or_drive_first_success bs1 b bs2 s h1 hb]

/-- C2 witness: a failing first branch, a succeeding second branch and a
third branch that would also succeed — only the second branch's results
are emitted. -/
theorem op_or_emits_first_successful_branch_witness :
    ((fun _ => []) : List value → List (List value)) [] = []
    ∧ (((fun s => [s, s]) : List value → List (List value)) [] ≠ [])
    ∧ op_or.run [fun _ => [], fun s => [s, s], fun _ => [[value.cst 0 7 0]]] [[]]
        = [[], []] := by
  refine ⟨rfl, by simp, ?_⟩
  have h := op_or_emits_first_successful_branch [fun _ => []] (fun s => [s, s])
    [fun _ => [[value.cst 0 7 0]]] [] [] (fun b1 hb1 => ?_) (by simp)
  · exact h
  · rcases List.mem_singleton.mp hb1 with h2
    rw [h2]

theorem value.typeCode_lt (v : value) : v.typeCode < 256 := by
  cases v <;> simp [value.typeCode]

theorem shiftLeft_lor_add (b : Nat) {a k : Nat} (h : a < 2 ^ k) :
    (b <<< k) ||| a = b * 2 ^ k + a := by
  apply Nat.eq_of_testBit_eq
  intro i
  rw [Nat.testBit_lor, Nat.testBit_shiftLeft]
  by_cases hik : i < k
  · have h1 : decide (i ≥ k) = false := by
      simp only [decide_eq_false_iff_not]
      omega
    rw [h1, Bool.false_and, Bool.false_or]
    have hmod : (b * 2 ^ k + a) % 2 ^ k = a := by
      rw [Nat.add_mod, Nat.mul_mod_left, Nat.zero_add,
        Nat.mod_mod_of_dvd a (dvd_refl (2 ^ k))]
      exact Nat.mod_eq_of_lt h
    calc a.testBit i = ((b * 2 ^ k + a) % 2 ^ k).testBit i := by rw [hmod]
      _ = (decide (i < k) && (b * 2 ^ k + a).testBit i) := Nat.testBit_mod_two_pow _ k i
      _ = (b * 2 ^ k + a).testBit i := by simp [hik]
  · have h1 : decide (i ≥ k) = true := by
      simp only [decide_eq_true_eq]
      omega
    rw [h1, Bool.true_and]
    have ha : a.testBit i = false :=
      Nat.testBit_lt_two_pow (lt_of_lt_of_le h (Nat.pow_le_pow_right (by norm_num) (by omega)))
    rw [ha, Bool.or_false]
    have hdiv : (b * 2 ^ k + a) >>> k = b := by
      rw [Nat.shiftRight_eq_div_pow, Nat.add_comm, Nat.mul_comm,
        Nat.add_mul_div_left _ _ (Nat.two_pow_pos k), Nat.div_eq_of_lt h, Nat.zero_add]
    have h2 := Nat.testBit_shiftRight (i := k) (j := i - k) (b * 2 ^ k + a)
    rw [hdiv] at h2
    rw [h2]
    congr 1
    omega

theorem profTake_nil (k : Nat) : profTake k [] = 0 := by
  simp [profTake]

theorem profTake_zero (vs : List value) : profTake 0 vs = 0 := by
  simp [profTake]

theorem profTake_cons (k : Nat) (v : value) (vs : List value) :
    profTake (k + 1) (v :: vs) = profTake k vs * 256 + v.typeCode := by
  simp [profTake, List.take_succ_cons]

theorem profTake_lt : ∀ (k : Nat) (vs : List value), profTake k vs < 2 ^ (8 * k)
  | 0, vs => by simp [profTake_zero]
  | k + 1, [] => by simp [profTake_nil]
  | k + 1, v :: vs => by
    have h1 := profTake_lt k vs
    have h2 := value.typeCode_lt v
    have h3 : 2 ^ (8 * (k + 1)) = 2 ^ (8 * k) * 256 := by
      rw [show 8 * (k + 1) = 8 * k + 8 by ring, pow_add]
      norm_num
    rw [profTake_cons, h3]
    omega

theorem profTake_succ_of_le {k : Nat} {vs : List value} (h : vs.length ≤ k) :
    profTake (k + 1) vs = profTake k vs := by
  rw [profTake, profTake, List.take_of_length_le h,
    List.take_of_length_le (le_trans h (Nat.le_succ k))]

theorem profTake_succ_of_lt : ∀ (k : Nat) (vs : List value) (h : k < vs.length),
    profTake (k + 1) vs = profTake k vs + 2 ^ (8 * k) * value.typeCode (vs.get ⟨k, h⟩)
  | 0, v :: vs, _ => by
    rw [profTake_cons, profTake_zero, profTake_zero]
    simp [List.get]
  | k + 1, v :: vs, h => by
    have hk : k < vs.length := by
      simpa using Nat.lt_of_succ_lt_succ h
    have ih := profTake_succ_of_lt k vs hk
    rw [profTake_cons, profTake_cons, ih]
    have h3 : 2 ^ (8 * (k + 1)) = 2 ^ (8 * k) * 256 := by
      rw [show 8 * (k + 1) = 8 * k + 8 by ring, pow_add]
      norm_num
    rw [show ((v :: vs).get ⟨k + 1, h⟩) = vs.get ⟨k, hk⟩ from rfl, h3]
    ring

theorem profTake_succ_decomp (k : Nat) (vs : List value) :
    ∃ b, b < 256 ∧ profTake (k + 1) vs = profTake k vs + 2 ^ (8 * k) * b := by
  by_cases h : k < vs.length
  · exact ⟨value.typeCode (vs.get ⟨k, h⟩), value.typeCode_lt _,
      profTake_succ_of_lt k vs h⟩
  · exact ⟨0, by norm_num, by rw [profTake_succ_of_le (by omega)]; ring⟩

theorem push_preserves_wf (stk : stack) (v : value) (hwf : stk.wf) :
    (stk.push v).wf := by
  rcases profTake_succ_decomp 3 stk.m_values with ⟨b, hb, hdec⟩
  have hlt3 := profTake_lt 3 stk.m_values
  show ((stk.m_profile <<< 8) % 2 ^ (8 * selW)) ||| v.typeCode
      = profTake selW (v :: stk.m_values)
  rw [stack.wf] at hwf
  rw [hwf, Nat.shiftLeft_eq]
  have hsel : selW = 3 + 1 := rfl
  rw [hsel, hdec]
  have hmod : (profTake 3 stk.m_values + 2 ^ (8 * 3) * b) * 2 ^ 8 % 2 ^ (8 * (3 + 1))
      = profTake 3 stk.m_values * 2 ^ 8 := by
    have e1 : (profTake 3 stk.m_values + 2 ^ (8 * 3) * b) * 2 ^ 8
        = profTake 3 stk.m_values * 2 ^ 8 + b * 2 ^ (8 * (3 + 1)) := by
      rw [show 8 * (3 + 1) = 8 * 3 + 8 by ring, pow_add]
      ring
    rw [e1, Nat.add_mul_mod_self_right]
    apply Nat.mod_eq_of_lt
    calc profTake 3 stk.m_values * 2 ^ 8 < 2 ^ (8 * 3) * 2 ^ 8 :=
          mul_lt_mul_of_pos_right hlt3 (by norm_num)
      _ = 2 ^ (8 * (3 + 1)) := by rw [← pow_add]

  rw [hmod]
  have hc := value.typeCode_lt v
  have hlor : (profTake 3 stk.m_values * 2 ^ 8) ||| v.typeCode
      = profTake 3 stk.m_values * 2 ^ 8 + v.typeCode := by
    conv_lhs => rw [← Nat.shiftLeft_eq]
    exact shiftLeft_lor_add (profTake 3 stk.m_values) (k := 8) (a := v.typeCode)
      (by simpa using value.typeCode_lt v)
  rw [hlor, profTake_cons]
  norm_num

theorem pop_preserves_wf (stk stk2 : stack) (v : value)
    (hwf : stk.wf) (h : stk.pop = Except.ok (v, stk2)) : stk2.wf := by
  match hv : stk.m_values with
  | [] =>
    rw [stack.pop, hv] at h
    exact absurd h (by simp)
  | w :: rest =>
    rw [stack.pop, hv] at h
    simp only [Except.ok.injEq, Prod.mk.injEq] at h
    obtain ⟨hv1, hstk⟩ := h
    rw [← hstk]
    show popProfile stk.m_profile rest = profTake selW rest
    rw [stack.wf, hv] at hwf
    have hcons : profTake selW (w :: rest) = profTake 3 rest * 256 + w.typeCode :=
      profTake_cons 3 w rest
    have hshift : stk.m_profile >>> 8 = profTake 3 rest := by
      rw [hwf, hcons, Nat.shiftRight_eq_div_pow,
        show (2:Nat) ^ 8 = 256 from by norm_num, Nat.mul_comm,
        Nat.mul_add_div (by norm_num), Nat.div_eq_of_lt (value.typeCode_lt w)]
      omega
    rw [popProfile]
    by_cases hlen : selW ≤ rest.length
    · rw [if_pos hlen, hshift]
      have h3 : (3 : Nat) < rest.length := by
        have : selW = 4 := rfl
        omega
      have hget : rest.getD (selW - 1) default = rest.get ⟨3, h3⟩ := by
        rw [show selW - 1 = 3 from rfl, List.getD_eq_getElem?_getD,
          List.getElem?_eq_getElem h3]
        simp [List.get_eq_getElem]
      rw [hget, Nat.lor_comm, show (8 * (selW - 1)) = 24 from rfl,
        shiftLeft_lor_add (value.typeCode (rest.get ⟨3, h3⟩)) (k := 24)
          (by have := profTake_lt 3 rest; norm_num at this ⊢; omega)]
      have hsucc := profTake_succ_of_lt 3 rest h3
      show value.typeCode (rest.get ⟨3, h3⟩) * 2 ^ 24 + profTake 3 rest
          = profTake 4 rest
      rw [hsucc]
      have h24 : (2:Nat) ^ (8 * 3) = 2 ^ 24 := by norm_num
      rw [h24]
      ring
    · rw [if_neg hlen, hshift]
      show profTake 3 rest = profTake (3 + 1) rest
      have hlen3 : rest.length ≤ 3 := by
        have : selW = 4 := rfl
        omega
      exact (profTake_succ_of_le hlen3).symm

theorem dropProfileGo_correct (vs : List value) :
    ∀ (w d acc : Nat), acc < 2 ^ (8 * d) →
      dropProfileGo vs w d acc = acc + 2 ^ (8 * d) * profTake w (vs.drop d)
  | 0, d, acc, h => by
    rw [dropProfileGo, profTake_zero]
    ring
  | w + 1, d, acc, h => by
    have hX : 2 ^ (8 * (d + 1)) = 2 ^ (8 * d) * 256 := by
      rw [show 8 * (d + 1) = 8 * d + 8 by ring, pow_add]
      norm_num
    cases hget : vs.get? d with
    | none =>
      have hlen : vs.length ≤ d := List.get?_eq_none.mp hget
      rw [dropProfileGo, hget, List.drop_eq_nil_of_le hlen, profTake_nil]
      ring
    | some v =>
      obtain ⟨hd, hv⟩ := List.get?_eq_some.mp hget
      have hlor : acc ||| (value.typeCode v <<< (8 * d))
          = value.typeCode v * 2 ^ (8 * d) + acc := by
        rw [Nat.lor_comm]
        exact shiftLeft_lor_add (value.typeCode v) h
      have hacc2 : value.typeCode v * 2 ^ (8 * d) + acc < 2 ^ (8 * (d + 1)) := by
        have hc := value.typeCode_lt v
        have hp : 0 < 2 ^ (8 * d) := Nat.two_pow_pos _
        rw [hX]
        calc value.typeCode v * 2 ^ (8 * d) + acc
            < value.typeCode v * 2 ^ (8 * d) + 2 ^ (8 * d) := by omega
          _ = (value.typeCode v + 1) * 2 ^ (8 * d) := by ring
          _ ≤ 256 * 2 ^ (8 * d) := Nat.mul_le_mul_right _ (by omega)
          _ = 2 ^ (8 * d) * 256 := by ring
      have ih := dropProfileGo_correct vs w (d + 1)
        (value.typeCode v * 2 ^ (8 * d) + acc) hacc2
      have hdrop : vs.drop d = v :: vs.drop (d + 1) := by
        rw [List.drop_eq_getElem_cons hd]
        rw [← hv, List.get_eq_getElem]
      rw [dropProfileGo, hget]
      show dropProfileGo vs w (d + 1) (acc ||| value.typeCode v <<< (8 * d))
          = acc + 2 ^ (8 * d) * profTake (w + 1) (vs.drop d)
      rw [hlor, ih, hdrop, profTake_cons, hX]
      ring

theorem drop_preserves_wf (stk stk2 : stack) (n : Nat)
    (h : stk.drop n = Except.ok stk2) : stk2.wf := by
  rw [stack.drop] at h
  by_cases hn : n > stk.m_values.length
  · rw [if_pos hn] at h
    exact absurd h (by simp)
  · rw [if_neg hn] at h
    simp only [Except.ok.injEq] at h
    rw [← h]
    show dropProfileGo (stk.m_values.drop n) selW 0 0
        = profTake selW (stk.m_values.drop n)
    rw [dropProfileGo_correct (stk.m_values.drop n) selW 0 0 (by norm_num)]
    norm_num

/-- C4: after every push, pop, and drop operation on a stack, the
stack's cached selector (`m_profile`) equals the concatenation of the
8-bit type codes of its top W values, with the top value's code in the
lowest byte, zero-padded when the stack is shallower than W
(`stack.wf`, with `profTake selW` expressing the concatenation).  A
freshly constructed stack satisfies the invariant, and each of the three
operations preserves it. -/
theorem selector_matches_top_types :
    (stack.mk [] 0).wf
    ∧ (∀ (stk : stack) (v : value), stk.wf → (stk.push v).wf)
    ∧ (∀ (stk stk2 : stack) (v : value), stk.wf →
        stk.pop = Except.ok (v, stk2) → stk2.wf)
    ∧ (∀ (stk stk2 : stack) (n : Nat),
        stk.drop n = Except.ok stk2 → stk2.wf) :=
  ⟨rfl, push_preserves_wf, pop_preserves_wf, drop_preserves_wf⟩

/-- C4 witness: the invariant checked through a concrete push followed
by a pop — pushing a constant onto the empty stack gives selector 1, and
popping it restores selector 0. -/
theorem selector_matches_top_types_witness :
    (stack.mk [] 0).wf
    ∧ ((stack.mk [] 0).push (value.cst 0 5 0)).wf
    ∧ ((stack.mk [value.cst 0 5 0] 1).pop
        = Except.ok (value.cst 0 5 0, stack.mk [] 0)
      ∧ (stack.mk [] 0).wf)
    ∧ ((stack.mk [value.cst 0 5 0] 1).drop 1 = Except.ok (stack.mk [] 0)
      ∧ (stack.mk [] 0).wf) := by
  refine ⟨selector_matches_top_types.1, ?_, ⟨rfl, ?_⟩, ⟨rfl, ?_⟩⟩
  · exact selector_matches_top_types.2.1 (stack.mk [] 0) (value.cst 0 5 0)
      selector_matches_top_types.1
  · exact selector_matches_top_types.2.2.1 (stack.mk [value.cst 0 5 0] 1)
      (stack.mk [] 0) (value.cst 0 5 0) rfl rfl
  · exact selector_matches_top_types.2.2.2 (stack.mk [value.cst 0 5 0] 1)
      (stack.mk [] 0) 1 rfl

/-- C5 witness: an inner expression with two result stacks whose tops
are the constants 1 (position 5) and 2 (position 6); the collection
succeeds and the theorem yields that `elem` on the captured sequence
reproduces both values, in order, up to `cmp`. -/
theorem capture_then_elem_matches_inner_witness :
    popTops (((fun _ => [[value.cst 0 1 5], [value.cst 0 2 6]]) :
        List value → List (List value)) [])
      = Except.ok [value.cst 0 1 5, value.cst 0 2 6]
    ∧ (op_capture (fun _ => [[value.cst 0 1 5], [value.cst 0 2 6]]) []
        = Except.ok [value.seq (vlist.ofList [value.cst 0 1 5, value.cst 0 2 6]) 0]
      ∧ List.Forall₂ (fun a b => value.cmp a b = cmp_result.equal)
          (seqElemOut (vlist.ofList [value.cst 0 1 5, value.cst 0 2 6]))
          [value.cst 0 1 5, value.cst 0 2 6]) :=
  ⟨rfl, capture_then_elem_matches_inner
    (fun _ => [[value.cst 0 1 5], [value.cst 0 2 6]]) []
    [value.cst 0 1 5, value.cst 0 2 6] rfl⟩

theorem tr_plus_sound_aux (inner : List value → List (List value))
    (us0 : List (List value)) :
    ∀ (fuel : Nat) (pnd wl sn up : List (List value)),
      (∀ s ∈ up, s ∈ us0) →
      (∀ r ∈ pnd, ∃ s ∈ us0, Relation.TransGen (fun a b => b ∈ inner a) s r) →
      (∀ w ∈ wl, ∃ s ∈ us0, Relation.TransGen (fun a b => b ∈ inner a) s w) →
      ∀ t ∈ op_tr_closure.run inner true fuel ⟨pnd, wl, sn, up⟩,
        ∃ s ∈ us0, Relation.TransGen (fun a b => b ∈ inner a) s t
  | 0, _, _, _, _, _, _, _ => by
    intro t ht
    simp only [op_tr_closure.run] at ht
    exact absurd ht (List.not_mem_nil t)
  | fuel + 1, r :: rest, wl, sn, up, hu, hp, hw => by
    intro t ht
    simp only [op_tr_closure.run] at ht
    by_cases hseen : seenMem sn r
    · rw [if_pos hseen] at ht
      exact tr_plus_sound_aux inner us0 fuel rest wl sn up hu
        (fun x hx => hp x (List.mem_cons_of_mem r hx)) hw t ht
    · rw [if_neg hseen] at ht
      rcases List.mem_cons.mp ht with h1 | h1
      · rw [h1]
        exact hp r (List.mem_cons_self r rest)
      · refine tr_plus_sound_aux inner us0 fuel rest (r :: wl) (r :: sn) up hu
          (fun x hx => hp x (List.mem_cons_of_mem r hx)) ?_ t h1
        intro x hx
        rcases List.mem_cons.mp hx with h2 | h2
        · rw [h2]
          exact hp r (List.mem_cons_self r rest)
        · exact hw x h2
  | fuel + 1, [], w :: ws, sn, up, hu, hp, hw => by
    intro t ht
    simp only [op_tr_closure.run] at ht
    refine tr_plus_sound_aux inner us0 fuel (inner w) ws sn up hu ?_
      (fun x hx => hw x (List.mem_cons_of_mem w hx)) t ht
    intro x hx
    rcases hw w (List.mem_cons_self w ws) with ⟨s, hs, htg⟩
    exact ⟨s, hs, Relation.TransGen.tail htg hx⟩
  | fuel + 1, [], [], sn, [], hu, hp, hw => by
    intro t ht
    simp only [op_tr_closure.run] at ht
    exact absurd ht (List.not_mem_nil t)
  | fuel + 1, [], [], sn, s :: us, hu, hp, hw => by
    intro t ht
    simp only [op_tr_closure.run, if_true] at ht
    refine tr_plus_sound_aux inner us0 fuel (inner s) [] [] us
      (fun x hx => hu x (List.mem_cons_of_mem s hx)) ?_
      (fun x hx => absurd hx (List.not_mem_nil x)) t ht
    intro x hx
    exact ⟨s, hu s (List.mem_cons_self s us), Relation.TransGen.single hx⟩

theorem tr_fresh_aux (inner : List value → List (List value)) (k : Bool) :
    ∀ (fuel : Nat) (pnd wl sn : List (List value)) (x : List value),
      x ∈ sn →
      ∀ t ∈ op_tr_closure.run inner k fuel ⟨pnd, wl, sn, []⟩,
        stackEqb x t = false
  | 0, _, _, _, _, _ => by
    intro t ht
    simp only [op_tr_closure.run] at ht
    exact absurd ht (List.not_mem_nil t)
  | fuel + 1, r :: rest, wl, sn, x, hx => by
    intro t ht
    simp only [op_tr_closure.run] at ht
    by_cases hseen : seenMem sn r
    · rw [if_pos hseen] at ht
      exact tr_fresh_aux inner k fuel rest wl sn x hx t ht
    · rw [if_neg hseen] at ht
      rcases List.mem_cons.mp ht with h1 | h1
      · rw [h1]
        rw [seenMem, List.any_eq_true] at hseen
        push_neg at hseen
        simpa using hseen x hx
      · exact tr_fresh_aux inner k fuel rest (r :: wl) (r :: sn) x
          (List.mem_cons_of_mem r hx) t h1
  | fuel + 1, [], w :: ws, sn, x, hx => by
    intro t ht
    simp only [op_tr_closure.run] at ht
    exact tr_fresh_aux inner k fuel (inner w) ws sn x hx t ht
  | fuel + 1, [], [], sn, x, hx => by
    intro t ht
    simp only [op_tr_closure.run] at ht
    exact absurd ht (List.not_mem_nil t)

theorem tr_pairwise_aux (inner : List value → List (List value)) (k : Bool) :
    ∀ (fuel : Nat) (pnd wl sn : List (List value)),
      List.Pairwise (fun a b => stackEqb a b = false)
        (op_tr_closure.run inner k fuel ⟨pnd, wl, sn, []⟩)
  | 0, _, _, _ => by
    simp only [op_tr_closure.run]
    exact List.Pairwise.nil
  | fuel + 1, r :: rest, wl, sn => by
    simp only [op_tr_closure.run]
    by_cases hseen : seenMem sn r
    · rw [if_pos hseen]
      exact tr_pairwise_aux inner k fuel rest wl sn
    · rw [if_neg hseen]
      refine List.pairwise_cons.mpr ⟨?_, tr_pairwise_aux inner k fuel rest (r :: wl) (r :: sn)⟩
      intro t ht
      exact tr_fresh_aux inner k fuel rest (r :: wl) (r :: sn) r
        (List.mem_cons_self r sn) t ht
  | fuel + 1, [], w :: ws, sn => by
    simp only [op_tr_closure.run]
    exact tr_pairwise_aux inner k fuel (inner w) ws sn
  | fuel + 1, [], [], sn => by
    simp only [op_tr_closure.run]
    exact List.Pairwise.nil

/-- C1: for every upstream input stack s, `TrClosure (inner, star)`
yields s itself as a result — it is the first stack emitted after s is
pulled, before the inner expression is even driven — while
`TrClosure (inner, plus)` yields only stacks that `inner` transitively
produces from some upstream input (so it yields s only if `inner`
transitively produces s); during the processing of one upstream input no
result stack that is structurally equal (same depth, pairwise
cmp-equal values, `stackEqb`) to an already-yielded stack is yielded a
second time; and the seen-set used for this deduplication is cleared
each time a new upstream stack is pulled — the continuation from a
drained state does not depend on the accumulated seen-set at all. -/
theorem tr_closure_star_plus_dedup :
    (∀ (inner : List value → List (List value))
      (sn : List (List value)) (s : List value) (us : List (List value)) (fuel : Nat),
      op_tr_closure.run inner false (fuel + 1) ⟨[], [], sn, s :: us⟩
        = s :: op_tr_closure.run inner false fuel ⟨[], [s], [s], us⟩)
    ∧ (∀ (inner : List value → List (List value)) (us : List (List value))
        (fuel : Nat) (t : List value),
        t ∈ op_tr_closure.run inner true fuel (trInit us) →
        ∃ s ∈ us, Relation.TransGen (fun a b => b ∈ inner a) s t)
    ∧ (∀ (inner : List value → List (List value)) (k : Bool) (s : List value)
        (fuel : Nat),
        List.Pairwise (fun a b => stackEqb a b = false)
          (op_tr_closure.run inner k fuel (trInit [s])))
    ∧ (∀ (inner : List value → List (List value)) (k : Bool) (fuel : Nat)
        (sn1 sn2 : List (List value)) (s : List value) (us : List (List value)),
        op_tr_closure.run inner k fuel ⟨[], [], sn1, s :: us⟩
          = op_tr_closure.run inner k fuel ⟨[], [], sn2, s :: us⟩) := by
  refine ⟨fun inner sn s us fuel => rfl, ?_, ?_, ?_⟩
  · intro inner us fuel t ht
    exact tr_plus_sound_aux inner us fuel [] [] [] us (fun s hs => hs)
      (fun r hr => absurd hr (List.not_mem_nil r))
      (fun w hw => absurd hw (List.not_mem_nil w)) t ht
  · intro inner k s fuel
    cases fuel with
    | zero =>
      simp only [trInit, op_tr_closure.run]
      exact List.Pairwise.nil
    | succ fuel =>
      cases k with
      | true =>
        simp only [trInit, op_tr_closure.run, if_true]
        exact tr_pairwise_aux inner true fuel (inner s) [] []
      | false =>
        simp only [trInit, op_tr_closure.run, if_false]
        refine List.pairwise_cons.mpr
          ⟨?_, tr_pairwise_aux inner false fuel [] [s] [s]⟩
        intro t ht
        exact tr_fresh_aux inner false fuel [] [s] [s] s
          (List.mem_cons_self s []) t ht
  · intro inner k fuel sn1 sn2 s us
    cases fuel with
    | zero => rfl
    | succ fuel => cases k <;> rfl

/-- C1 witness: with an inner expression that always yields the single
stack holding the constant 7, the plus closure of the input stack
holding the constant 1 yields that stack, and the theorem concludes that
it is transitively produced by the inner expression from the input. -/
theorem tr_closure_star_plus_dedup_witness :
    [value.cst 0 7 0] ∈ op_tr_closure.run (fun _ => [[value.cst 0 7 0]]) true 3
        (trInit [[value.cst 0 1 0]])
    ∧ ∃ s ∈ [[value.cst 0 1 0]],
        Relation.TransGen (fun a b => b ∈ (fun _ => [[value.cst 0 7 0]]) a)
          s [value.cst 0 7 0] := by
  have hmem : [value.cst 0 7 0] ∈ op_tr_closure.run (fun _ => [[value.cst 0 7 0]]) true 3
      (trInit [[value.cst 0 1 0]]) := by
    show [value.cst 0 7 0] ∈ [[value.cst 0 7 0]]
    exact List.mem_singleton.mpr rfl
  exact ⟨hmem, tr_closure_star_plus_dedup.2.1 (fun _ => [[value.cst 0 7 0]])
    [[value.cst 0 1 0]] 3 [value.cst 0 7 0] hmem⟩

theorem mergeDone (bs : List (List value → List (List value))) (n : Nat)
    (st : merge_state) (h : st.done = true) : mergeRun bs n st = [] := by
  cases n with
  | zero => rfl
  | succ n => rw [mergeRun, if_pos h]

theorem mergeDrain0 (bs : List (List value → List (List value))) :
    ∀ (p : List (List value)) (n : Nat) (q : List (List value))
      (f : List (Option (List value))) (u : List (List value)),
      mergeRun bs (n + p.length) ⟨[p, q], f, false, u, 0⟩
        = p ++ mergeRun bs n ⟨[[], q], f, false, u, 0⟩
  | [], n, q, f, u => rfl
  | r :: rs, n, q, f, u => by
    show r :: mergeRun bs (n + rs.length) ⟨[rs, q], f, false, u, 0⟩ = (r :: rs) ++ _
    rw [mergeDrain0 bs rs n q f u]
    rfl

theorem mergeDrain1 (bs : List (List value → List (List value))) :
    ∀ (p : List (List value)) (n : Nat) (q : List (List value))
      (f : List (Option (List value))) (u : List (List value)),
      mergeRun bs (n + p.length) ⟨[q, p], f, false, u, 1⟩
        = p ++ mergeRun bs n ⟨[q, []], f, false, u, 1⟩
  | [], n, q, f, u => rfl
  | r :: rs, n, q, f, u => by
    show r :: mergeRun bs (n + rs.length) ⟨[q, rs], f, false, u, 1⟩ = (r :: rs) ++ _
    rw [mergeDrain1 bs rs n q f u]
    rfl

theorem mergeEnd1 (b0 b1 : List value → List (List value)) (m : Nat) :
    mergeRun [b0, b1] (m + 2) ⟨[[], []], [none, none], false, [], 1⟩ = [] := by
  show mergeRun [b0, b1] (m + 1) ⟨[[], []], [none, none], true, [], 0⟩ = []
  exact mergeDone [b0, b1] (m + 1) _ rfl

theorem mergeStage1 (n : Nat) (L1 : List (List value))
    (b0 : List value → List (List value)) (s : List value) :
    mergeRun [b0, fun _ => L1] (n + L1.length + 7)
      ⟨[[], []], [none, some s], false, [], 1⟩ = L1 := by
  cases L1 with
  | nil =>
    show mergeRun [b0, fun _ => ([] : List (List value))] (n + 6)
        ⟨[[], []], [none, none], true, [], 0⟩ = []
    exact mergeDone _ (n + 6) _ rfl
  | cons r rs =>
    show r :: mergeRun [b0, fun _ => r :: rs] (n + rs.length + 7)
        ⟨[[], rs], [none, none], false, [], 1⟩ = r :: rs
    have he : n + rs.length + 7 = (n + 7) + rs.length := by omega
    rw [he, mergeDrain1 [b0, fun _ => r :: rs] rs (n + 7) [] [none, none] [],
      mergeEnd1 b0 (fun _ => r :: rs) (n + 5), List.append_nil]

theorem merge_single_input_aux (n : Nat) (L0 L1 : List (List value)) (s : List value) :
    mergeRun [fun _ => L0, fun _ => L1] (n + L1.length + L0.length + 8)
      (mergeInit 2 [s]) = L0 ++ L1 := by
  cases L0 with
  | nil =>
    show mergeRun [fun _ => ([] : List (List value)), fun _ => L1]
        (n + L1.length + 7) ⟨[[], []], [none, some s], false, [], 1⟩ = [] ++ L1
    rw [List.nil_append]
    exact mergeStage1 n L1 (fun _ => []) s
  | cons r rs =>
    show r :: mergeRun [fun _ => r :: rs, fun _ => L1]
        (n + L1.length + rs.length + 8)
        ⟨[rs, []], [none, some s], false, [], 0⟩ = (r :: rs) ++ L1
    have he : n + L1.length + rs.length + 8 = (n + L1.length + 8) + rs.length := by
      omega
    rw [he, mergeDrain0 [fun _ => r :: rs, fun _ => L1] rs (n + L1.length + 8)
      [] [none, some s] []]
    have h2 : mergeRun [fun _ => r :: rs, fun _ => L1] (n + L1.length + 8)
        ⟨[[], []], [none, some s], false, [], 0⟩ = L1 := by
      show mergeRun [fun _ => r :: rs, fun _ => L1] (n + L1.length + 7)
          ⟨[[], []], [none, some s], false, [], 1⟩ = L1
      exact mergeStage1 n L1 (fun _ => r :: rs) s
    rw [h2]
    rfl

theorem merge_stays_on_branch_aux (bs : List (List value → List (List value)))
    (fuel : Nat) (st : merge_state) (r : List value) (rs : List (List value))
    (hdone : st.done = false) (hpend : st.pendings.getD st.it [] = r :: rs) :
    mergeRun bs (fuel + 1) st
      = r :: mergeRun bs fuel { st with pendings := st.pendings.set st.it rs } := by
  rw [mergeRun, hdone]
  simp only [Bool.false_eq_true, if_false]
  rw [branchPull.eq_def, hpend]
  simp [hdone]

/-- C3 counterexample: with one upstream stack and two branches yielding
two results each, the merge graph emits both results of the first branch
before any result of the second — not one result per branch in rotation
as the claim states.  The round-robin reading (`roundRobin`, built from
the claim's words) would interleave them. -/
theorem merge_round_robin_counterexample :
    mergeRun [fun _ => [mrgA, mrgB], fun _ => [mrgC, mrgD]] 40 (mergeInit 2 [mrgS])
      = [mrgA, mrgB, mrgC, mrgD]
    ∧ roundRobin [[mrgA, mrgB], [mrgC, mrgD]] = [mrgA, mrgC, mrgB, mrgD]
    ∧ mergeRun [fun _ => [mrgA, mrgB], fun _ => [mrgC, mrgD]] 40 (mergeInit 2 [mrgS])
        ≠ roundRobin [[mrgA, mrgB], [mrgC, mrgD]] := by
  refine ⟨rfl, rfl, ?_⟩
  intro h
  have e1 : mergeRun [fun _ => [mrgA, mrgB], fun _ => [mrgC, mrgD]] 40
      (mergeInit 2 [mrgS]) = [mrgA, mrgB, mrgC, mrgD] := rfl
  have e2 : roundRobin [[mrgA, mrgB], [mrgC, mrgD]] = [mrgA, mrgC, mrgB, mrgD] := rfl
  rw [e1, e2] at h
  simp [mrgA, mrgB, mrgC, mrgD] at h

/-- C3 (amended): the Merge operator polls its branches cyclically, but
a branch that yields a result keeps the turn — `m_it` is not advanced on
success, so each branch is drained of the results for its current input
before the rotation moves on; in particular, for a single upstream
stack, the output is branch 1's results followed by branch 2's, as
concatenation, not a one-result-per-branch interleaving. -/
theorem merge_drains_branch_before_rotating :
    (∀ (bs : List (List value → List (List value))) (fuel : Nat)
      (st : merge_state) (r : List value) (rs : List (List value)),
      st.done = false → st.pendings.getD st.it [] = r :: rs →
      mergeRun bs (fuel + 1) st
        = r :: mergeRun bs fuel { st with pendings := st.pendings.set st.it rs })
    ∧ (∀ (n : Nat) (L0 L1 : List (List value)) (s : List value),
      mergeRun [fun _ => L0, fun _ => L1] (n + L1.length + L0.length + 8)
        (mergeInit 2 [s]) = L0 ++ L1) :=
  ⟨merge_stays_on_branch_aux, merge_single_input_aux⟩

/-- C3 witness: the stay-on-branch conjunct applied to a concrete state
whose current branch has the queued result `mrgA` — it is emitted and
the iterator stays on branch 0. -/
theorem merge_drains_branch_before_rotating_witness :
    (merge_state.mk [[mrgA], []] [none, none] false [] 0).done = false
    ∧ (merge_state.mk [[mrgA], []] [none, none] false [] 0).pendings.getD 0 [] = [mrgA]
    ∧ mergeRun [] 5 (merge_state.mk [[mrgA], []] [none, none] false [] 0)
        = mrgA :: mergeRun [] 4 (merge_state.mk [[], []] [none, none] false [] 0) :=
  ⟨rfl, rfl, merge_drains_branch_before_rotating.1 [] 4
    (merge_state.mk [[mrgA], []] [none, none] false [] 0) mrgA [] rfl rfl⟩
